import Mathlib

/-!
Verification development for the musa TTS training/synthesis core
(`src/musa/core.py`).  The Python code is shallowly embedded: the
decode-time duration-to-frame expansion loops, the training engine's
early-stopping control flow, the multi-output per-speaker loss logging,
the synthesis post-processing of the voicing/tilt/log-F0 channels, and
the option-bag parsing are translated into executable Lean definitions
over exact rational arithmetic, and the specified properties are proved
or refuted about those definitions.
-/

namespace Musa

/-- Embeds the hard-coded 5 ms frame shift of the synthesis expansion
loops (`reldur_c += 0.005` in both `synthesize` and `att_synthesize`):
0.005 seconds as an exact rational. -/
def frameStride : ℚ := 1 / 200

/-- Embeds the inner expansion loop of `synthesize` (core.py lines
143-150): starting from the running offset `reldur`, while
`reldur <= d` (inclusive boundary policy) emit the relative position
`reldur / d` of the current frame and advance by `frameStride`.
The returned list holds one entry per emitted acoustic query frame. -/
def synthRelDurs (d : ℚ) (reldur : ℚ) : List ℚ :=
  if reldur ≤ d then
    (reldur / d) :: synthRelDurs d (reldur + frameStride)
  else
    []
termination_by (⌊(d - reldur) / frameStride⌋ + 1).toNat
decreasing_by
  have hs : (0:ℚ) < frameStride := by norm_num [frameStride]
  have hnum : (0:ℚ) ≤ (d - reldur) / frameStride := by
    apply div_nonneg <;> linarith
  have hfl : (0:ℤ) ≤ ⌊(d - reldur) / frameStride⌋ := Int.floor_nonneg.mpr hnum
  have harg : (d - (reldur + frameStride)) / frameStride
      = (d - reldur) / frameStride - 1 := by
    field_simp
    ring
  rw [harg, Int.floor_sub_one]
  omega

/-- Embeds the inner expansion loop of `att_synthesize` (core.py lines
250-257): identical to `synthRelDurs` except the exclusive boundary
policy `reldur < d`. -/
def attSynthRelDurs (d : ℚ) (reldur : ℚ) : List ℚ :=
  if reldur < d then
    (reldur / d) :: attSynthRelDurs d (reldur + frameStride)
  else
    []
termination_by (⌊(d - reldur) / frameStride⌋ + 1).toNat
decreasing_by
  have hs : (0:ℚ) < frameStride := by norm_num [frameStride]
  have hnum : (0:ℚ) ≤ (d - reldur) / frameStride := by
    apply div_nonneg <;> linarith
  have hfl : (0:ℤ) ≤ ⌊(d - reldur) / frameStride⌋ := Int.floor_nonneg.mpr hnum
  have harg : (d - (reldur + frameStride)) / frameStride
      = (d - reldur) / frameStride - 1 := by
    field_simp
    ring
  rw [harg, Int.floor_sub_one]
  omega

/-- Length of the inclusive expansion loop from any starting offset:
`(⌊(d - reldur)/stride⌋ + 1)⁺` frames. -/
theorem synthRelDurs_length (d reldur : ℚ) :
    (synthRelDurs d reldur).length
      = (⌊(d - reldur) / frameStride⌋ + 1).toNat := by
  induction reldur using synthRelDurs.induct d with
  | case1 r hle ih =>
    rw [synthRelDurs, if_pos hle, List.length_cons, ih]
    have hs : (0:ℚ) < frameStride := by norm_num [frameStride]
    have hnum : (0:ℚ) ≤ (d - r) / frameStride := by
      apply div_nonneg <;> linarith
    have hfl : (0:ℤ) ≤ ⌊(d - r) / frameStride⌋ := Int.floor_nonneg.mpr hnum
    have harg : (d - (r + frameStride)) / frameStride
        = (d - r) / frameStride - 1 := by
      field_simp
      ring
    rw [harg, Int.floor_sub_one]
    omega
  | case2 r hgt =>
    rw [synthRelDurs, if_neg hgt]
    have hs : (0:ℚ) < frameStride := by norm_num [frameStride]
    have hlt : d < r := lt_of_not_le hgt
    have hnum : (d - r) / frameStride < 0 := by
      apply div_neg_of_neg_of_pos <;> linarith
    have hfl : ⌊(d - r) / frameStride⌋ < 0 := by
      exact_mod_cast lt_of_le_of_lt (Int.floor_le _) hnum
    simp only [List.length_nil]
    omega

/-- Length of the exclusive expansion loop from any starting offset:
`(⌈(d - reldur)/stride⌉)⁺` frames. -/
theorem attSynthRelDurs_length (d reldur : ℚ) :
    (attSynthRelDurs d reldur).length
      = (⌈(d - reldur) / frameStride⌉).toNat := by
  induction reldur using attSynthRelDurs.induct d with
  | case1 r hlt ih =>
    rw [attSynthRelDurs, if_pos hlt, List.length_cons, ih]
    have hs : (0:ℚ) < frameStride := by norm_num [frameStride]
    have hnum : (0:ℚ) < (d - r) / frameStride := by
      apply div_pos <;> linarith
    have hcl : (0:ℤ) < ⌈(d - r) / frameStride⌉ := Int.ceil_pos.mpr hnum
    have harg : (d - (r + frameStride)) / frameStride
        = (d - r) / frameStride - 1 := by
      field_simp
      ring
    rw [harg, Int.ceil_sub_one]
    omega
  | case2 r hge =>
    rw [attSynthRelDurs, if_neg hge]
    have hs : (0:ℚ) < frameStride := by norm_num [frameStride]
    have hle : d ≤ r := le_of_not_lt hge
    have hnum : (d - r) / frameStride ≤ 0 := by
      apply div_nonpos_of_nonpos_of_nonneg <;> linarith
    have hcl : ⌈(d - r) / frameStride⌉ ≤ 0 := Int.ceil_le.mpr (by exact_mod_cast hnum)
    simp only [List.length_nil]
    omega

/-- Head of the inclusive expansion loop: when the guard holds, the
first emitted relative position is the current offset divided by the
unit duration. -/
theorem synthRelDurs_head (d reldur : ℚ) (h : reldur ≤ d) :
    (synthRelDurs d reldur).head? = some (reldur / d) := by
  rw [synthRelDurs, if_pos h]
  rfl

/-- Head of the exclusive expansion loop. -/
theorem attSynthRelDurs_head (d reldur : ℚ) (h : reldur < d) :
    (attSynthRelDurs d reldur).head? = some (reldur / d) := by
  rw [attSynthRelDurs, if_pos h]
  rfl

/-- Adjacent emitted relative positions of the inclusive loop are
non-decreasing for a positive unit duration. -/
theorem synthRelDurs_chain (d : ℚ) (hd : 0 < d) (reldur : ℚ) :
    List.Chain' (· ≤ ·) (synthRelDurs d reldur) := by
  induction reldur using synthRelDurs.induct d with
  | case1 r hle ih =>
    rw [synthRelDurs, if_pos hle]
    refine List.chain'_cons'.mpr ⟨?_, ih⟩
    intro y hy
    by_cases h2 : r + frameStride ≤ d
    · rw [synthRelDurs_head d _ h2] at hy
      have hy2 : y = (r + frameStride) / d := by
        simpa using hy.symm
      subst hy2
      have hstep : r ≤ r + frameStride := by
        norm_num [frameStride]
      exact div_le_div_of_nonneg_right hstep hd.le
    · rw [synthRelDurs, if_neg h2] at hy
      simp at hy
  | case2 r hgt =>
    rw [synthRelDurs, if_neg hgt]
    exact List.chain'_nil

/-- Adjacent emitted relative positions of the exclusive loop are
non-decreasing for a positive unit duration. -/
theorem attSynthRelDurs_chain (d : ℚ) (hd : 0 < d) (reldur : ℚ) :
    List.Chain' (· ≤ ·) (attSynthRelDurs d reldur) := by
  induction reldur using attSynthRelDurs.induct d with
  | case1 r hlt ih =>
    rw [attSynthRelDurs, if_pos hlt]
    refine List.chain'_cons'.mpr ⟨?_, ih⟩
    intro y hy
    by_cases h2 : r + frameStride < d
    · rw [attSynthRelDurs_head d _ h2] at hy
      have hy2 : y = (r + frameStride) / d := by
        simpa using hy.symm
      subst hy2
      have hstep : r ≤ r + frameStride := by
        norm_num [frameStride]
      exact div_le_div_of_nonneg_right hstep hd.le
    · rw [attSynthRelDurs, if_neg h2] at hy
      simp at hy
  | case2 r hge =>
    rw [attSynthRelDurs, if_neg hge]
    exact List.chain'_nil

/-- C1: for a unit of positive physical duration `d` and the fixed 5 ms
stride, the inclusive expansion loop of `synthesize` emits
`floor(d/s) + 1` frames and the exclusive loop of `att_synthesize`
emits `ceil(d/s)` frames; at `d = 0.020` these counts are 5 and 4. -/
theorem frame_count_policies (d : ℚ) (hd : 0 < d) :
    ((synthRelDurs d 0).length : ℤ) = ⌊d / frameStride⌋ + 1 ∧
    ((attSynthRelDurs d 0).length : ℤ) = ⌈d / frameStride⌉ ∧
    (synthRelDurs (1/50) 0).length = 5 ∧
    (attSynthRelDurs (1/50) 0).length = 4 := by
  have hs : (0:ℚ) < frameStride := by norm_num [frameStride]
  have hnum : (0:ℚ) ≤ d / frameStride := by positivity
  have hfl : (0:ℤ) ≤ ⌊d / frameStride⌋ := Int.floor_nonneg.mpr hnum
  have hcl : (0:ℤ) ≤ ⌈d / frameStride⌉ := Int.ceil_nonneg hnum
  refine ⟨?_, ?_, ?_, ?_⟩
  · rw [synthRelDurs_length, sub_zero]
    omega
  · rw [attSynthRelDurs_length, sub_zero]
    omega
  · rw [synthRelDurs_length, sub_zero]
    have h4 : ((1:ℚ)/50) / frameStride = 4 := by norm_num [frameStride]
    rw [h4]
    have hfl4 : ⌊(4:ℚ)⌋ = 4 := by norm_num
    rw [hfl4]
    rfl
  · rw [attSynthRelDurs_length, sub_zero]
    have h4 : ((1:ℚ)/50) / frameStride = 4 := by norm_num [frameStride]
    rw [h4]
    have hcl4 : ⌈(4:ℚ)⌉ = 4 := by norm_num
    rw [hcl4]
    rfl

/-- Witness for C1 at the concrete duration `d = 0.020`. -/
theorem frame_count_policies_witness :
    (0:ℚ) < 1/50 ∧
    (((synthRelDurs (1/50) 0).length : ℤ) = ⌊(1/50 : ℚ) / frameStride⌋ + 1 ∧
     ((attSynthRelDurs (1/50) 0).length : ℤ) = ⌈(1/50 : ℚ) / frameStride⌉ ∧
     (synthRelDurs (1/50) 0).length = 5 ∧
     (attSynthRelDurs (1/50) 0).length = 4) :=
  ⟨by norm_num, frame_count_policies (1/50) (by norm_num)⟩

/-- C8: for a positive unit duration the emitted relative-position
sequence of either expansion loop is non-decreasing and its first
element is exactly 0. -/
theorem relpos_sorted_first_zero (d : ℚ) (hd : 0 < d) :
    (synthRelDurs d 0).Sorted (· ≤ ·) ∧
    (synthRelDurs d 0).head? = some 0 ∧
    (attSynthRelDurs d 0).Sorted (· ≤ ·) ∧
    (attSynthRelDurs d 0).head? = some 0 := by
  refine ⟨?_, ?_, ?_, ?_⟩
  · exact List.chain'_iff_pairwise.mp (synthRelDurs_chain d hd 0)
  · rw [synthRelDurs_head d 0 hd.le, zero_div]
  · exact List.chain'_iff_pairwise.mp (attSynthRelDurs_chain d hd 0)
  · rw [attSynthRelDurs_head d 0 hd, zero_div]

/-- Witness for C8 at the concrete duration `d = 0.020`. -/
theorem relpos_sorted_first_zero_witness :
    (0:ℚ) < 1/50 ∧
    ((synthRelDurs (1/50) 0).Sorted (· ≤ ·) ∧
     (synthRelDurs (1/50) 0).head? = some 0 ∧
     (attSynthRelDurs (1/50) 0).Sorted (· ≤ ·) ∧
     (attSynthRelDurs (1/50) 0).head? = some 0) :=
  ⟨by norm_num, relpos_sorted_first_zero (1/50) (by norm_num)⟩

/-- Observable outcome of one `train_engine` run: how many training
epochs (`train_fn` calls) completed, the `model.save` calls in order as
(epoch index, best flag) pairs, and the message of a raised
`ValueError`, if any. -/
structure EngineResult where
  trained : ℕ
  saves : List (ℕ × Bool)
  error : Option String
  deriving DecidableEq, Repr

/-- Embeds the epoch loop of `train_engine` (core.py lines 29-84).
Parameters: `hasEvalFn` and `hasValLoader` record whether `eval_fn` and
`val_dloader` were passed; `hasEvalTarget` whether `eval_target` was
given; `scores epoch` is the monitored validation value
`val_scores[eval_target]` the external `eval_fn` returns for that
epoch; `evalPatience` is the `eval_patience` argument.  State threaded
through the loop: remaining epochs, current epoch index, `min_va_loss`
(`none` embeds the `np.inf` sentinel), the patience counter, the
`model.save` trace (reversed) and the count of completed `train_fn`
calls.  A `break` on exhausted patience skips that epoch's save, and a
raised `ValueError` aborts the loop. -/
def trainEngineGo (hasEvalFn hasValLoader hasEvalTarget : Bool)
    (scores : ℕ → ℚ) (evalPatience : Option ℤ) :
    ℕ → ℕ → Option ℚ → ℤ → List (ℕ × Bool) → ℕ → EngineResult
  | 0, _, _, _, saves, trained => ⟨trained, saves.reverse, none⟩
  | rem + 1, epoch, minVa, patience, saves, trained =>
    let trained := trained + 1
    if hasEvalFn ∧ ¬ hasValLoader then
      ⟨trained, saves.reverse, some "please specify a validation data loader"⟩
    else if hasEvalFn ∧ hasEvalTarget then
      match evalPatience with
      | none =>
        ⟨trained, saves.reverse, some "need a patience factor"⟩
      | some pat0 =>
        let v := scores epoch
        let improved := match minVa with
          | none => true
          | some m => v < m
        if improved then
          trainEngineGo hasEvalFn hasValLoader hasEvalTarget scores
            evalPatience rem (epoch + 1) (some v) pat0
            ((epoch, true) :: saves) trained
        else if patience - 1 = 0 then
          ⟨trained, saves.reverse, none⟩
        else
          trainEngineGo hasEvalFn hasValLoader hasEvalTarget scores
            evalPatience rem (epoch + 1) minVa (patience - 1)
            ((epoch, false) :: saves) trained
    else
      trainEngineGo hasEvalFn hasValLoader hasEvalTarget scores
        evalPatience rem (epoch + 1) minVa patience
        ((epoch, false) :: saves) trained

/-- Embeds a full `train_engine` call with `epochs` epochs, starting
from `min_va_loss = np.inf` and `patience = eval_patience`. -/
def trainEngine (epochs : ℕ) (hasEvalFn hasValLoader hasEvalTarget : Bool)
    (scores : ℕ → ℚ) (evalPatience : Option ℤ) : EngineResult :=
  trainEngineGo hasEvalFn hasValLoader hasEvalTarget scores evalPatience
    epochs 0 none (evalPatience.getD 0) [] 0

/-- The monitored validation sequence of testable property 7 of the
spec: [1.0, 0.9, 0.95, 0.96, 0.97]. -/
def c2Scores : ℕ → ℚ := fun n => [1, 9/10, 19/20, 24/25, 97/100].getD n 0

/-- C2: with monitored values [1.0, 0.9, 0.95, 0.96, 0.97] and
patience 2, the engine trains exactly 4 epochs before stopping, no
configuration error is raised, the save trace marks epochs 0 and 1 as
best and epoch 2 as not best (epoch 3 is never saved because the break
fires first), so the checkpoint last marked best is epoch 1, whose
monitored value is 0.9. -/
theorem early_stopping_trace :
    (trainEngine 5 true true true c2Scores (some 2)).trained = 4 ∧
    (trainEngine 5 true true true c2Scores (some 2)).error = none ∧
    (trainEngine 5 true true true c2Scores (some 2)).saves
      = [(0, true), (1, true), (2, false)] ∧
    ((trainEngine 5 true true true c2Scores (some 2)).saves.filter
      (fun p => p.2)).getLast? = some (1, true) ∧
    c2Scores 1 = 9/10 := by
  norm_num [trainEngine, trainEngineGo, c2Scores, List.filter, List.getLast?]

/-- C4 as stated is false: when `eval_fn` is given without a validation
loader, the `ValueError` is raised inside the first epoch iteration,
after `train_fn` has already run once, so one training epoch executes
before the error propagates (the claim says zero). -/
theorem eval_without_loader_counterexample :
    ((trainEngine 5 true false true c2Scores (some 2)).error
      = some "please specify a validation data loader") ∧
    (trainEngine 5 true false true c2Scores (some 2)).trained = 1 ∧
    ¬ (trainEngine 5 true false true c2Scores (some 2)).trained = 0 := by
  norm_num [trainEngine, trainEngineGo]

/-- C4 amended: with `eval_fn` supplied and no validation loader, the
engine raises the `ValueError` during the first epoch iteration: exactly
one training epoch runs, nothing is saved, and the error carries the
missing-validation-loader message, for any positive epoch budget. -/
theorem eval_without_loader_raises (epochs : ℕ) (hasEvalTarget : Bool)
    (scores : ℕ → ℚ) (evalPatience : Option ℤ) (h : 1 ≤ epochs) :
    (trainEngine epochs true false hasEvalTarget scores evalPatience).error
      = some "please specify a validation data loader" ∧
    (trainEngine epochs true false hasEvalTarget scores evalPatience).trained = 1 ∧
    (trainEngine epochs true false hasEvalTarget scores evalPatience).saves = [] := by
  obtain ⟨rem, rfl⟩ : ∃ rem, epochs = rem + 1 := ⟨epochs - 1, by omega⟩
  refine ⟨rfl, rfl, rfl⟩

/-- Witness for the amended C4 at one epoch. -/
theorem eval_without_loader_raises_witness :
    1 ≤ 1 ∧
    ((trainEngine 1 true false true c2Scores (some 2)).error
      = some "please specify a validation data loader" ∧
    (trainEngine 1 true false true c2Scores (some 2)).trained = 1 ∧
    (trainEngine 1 true false true c2Scores (some 2)).saves = []) :=
  ⟨le_refl 1, eval_without_loader_raises 1 true c2Scores (some 2) (le_refl 1)⟩

/-- Python dict update on an insertion-ordered key/value list, as used
for `spk_loss_batch[spk] = loss`: an existing key keeps its position
and gets the new value, a new key is appended. -/
def updateLoss (d : List (ℤ × ℚ)) (s : ℤ) (v : ℚ) : List (ℤ × ℚ) :=
  if d.any (fun p => p.1 == s) then
    d.map (fun p => if p.1 == s then (s, v) else p)
  else
    d ++ [(s, v)]

/-- Embeds the multi-output batch loop of `train_dur_epoch` (core.py
lines 582-606; `train_aco_epoch` lines 419-445 is identical): each
batch writes its speaker's loss into `spk_loss_batch`, and at each
logging point the whole current dict is emitted as the composite
record.  The dict is never cleared.  Returns the emitted records in
order. -/
def moLogGo (emitAt : ℕ → Bool) :
    List (ℤ × ℚ) → ℕ → List (ℤ × ℚ) → List (List (ℤ × ℚ))
  | [], _, _ => []
  | (s, v) :: rest, bIdx, dict =>
    let dict2 := updateLoss dict s v
    (if emitAt bIdx then [dict2] else []) ++ moLogGo emitAt rest (bIdx + 1) dict2

/-- One multi-output training epoch's emitted composite loss records.
A batch is (speaker id, loss); the loss is the external criterion's
value for that batch.  The logging condition embeds
`(b_idx + 1) % (round_N * log_freq) == 0 or (b_idx + 1) >= num_batches`
with `num_batches = len(dloader)`. -/
def moTrainLog (roundN logFreq : ℕ) (batches : List (ℤ × ℚ)) :
    List (List (ℤ × ℚ)) :=
  moLogGo
    (fun bIdx =>
      ((bIdx + 1) % (roundN * logFreq) == 0) || decide (batches.length ≤ bIdx + 1))
    batches 0 []

/-- Key-set effect of a dict update: the keys afterwards are the keys
before plus the written speaker. -/
theorem updateLoss_keys (d : List (ℤ × ℚ)) (s : ℤ) (v : ℚ) (x : ℤ) :
    x ∈ (updateLoss d s v).map Prod.fst ↔ x ∈ d.map Prod.fst ∨ x = s := by
  unfold updateLoss
  by_cases h : d.any (fun p => p.1 == s)
  · rw [if_pos h]
    have hmem : s ∈ d.map Prod.fst := by
      rw [List.any_eq_true] at h
      obtain ⟨p, hp, hps⟩ := h
      rw [beq_iff_eq] at hps
      exact List.mem_map.mpr ⟨p, hp, hps⟩
    have hkeys : (d.map (fun p => if p.1 == s then (s, v) else p)).map Prod.fst
        = d.map Prod.fst := by
      rw [List.map_map]
      apply List.map_congr_left
      intro p _
      by_cases hps : p.1 == s
      · rw [beq_iff_eq] at hps
        simp [hps]
      · have hne : p.1 ≠ s := by simpa using hps
        simp [hne]
    rw [hkeys]
    constructor
    · exact Or.inl
    · rintro (hx | rfl)
      · exact hx
      · exact hmem
  · rw [if_neg h]
    simp

/-- The speaker-loss dict obtained by folding a batch sequence into an
initial dict, one `spk_loss_batch[spk] = loss` update per batch. -/
def lossDictFrom (dict : List (ℤ × ℚ)) (bs : List (ℤ × ℚ)) : List (ℤ × ℚ) :=
  bs.foldl (fun d p => updateLoss d p.1 p.2) dict

/-- The speaker-loss dict accumulated from the start of the epoch. -/
def lossDict (bs : List (ℤ × ℚ)) : List (ℤ × ℚ) :=
  lossDictFrom [] bs

/-- A key other than the written speaker looks up unchanged through the
update-in-place branch of the dict write. -/
theorem lookup_map_update_ne (s : ℤ) (v : ℚ) (x : ℤ) (hx : x ≠ s) :
    ∀ d : List (ℤ × ℚ),
      List.lookup x (d.map (fun p => if p.1 == s then (s, v) else p))
        = List.lookup x d
  | [] => rfl
  | (k, b) :: d => by
    rw [List.map_cons]
    by_cases hks : k = s
    · subst hks
      rw [if_pos (by simp)]
      have hxk : (x == k) = false := beq_eq_false_iff_ne.mpr hx
      simp only [List.lookup, hxk]
      exact lookup_map_update_ne k v x hx d
    · rw [if_neg (by simp [hks])]
      by_cases hxk : x = k
      · subst hxk
        simp only [List.lookup, beq_self_eq_true]
      · have hxk' : (x == k) = false := beq_eq_false_iff_ne.mpr hxk
        simp only [List.lookup, hxk']
        exact lookup_map_update_ne s v x hx d

/-- The written speaker looks up the new loss through the
update-in-place branch of the dict write, provided it was present. -/
theorem lookup_map_update_self (s : ℤ) (v : ℚ) :
    ∀ d : List (ℤ × ℚ), d.any (fun p => p.1 == s) = true →
      List.lookup s (d.map (fun p => if p.1 == s then (s, v) else p)) = some v
  | [], h => by simp at h
  | (k, b) :: d, h => by
    rw [List.map_cons]
    by_cases hks : k = s
    · subst hks
      rw [if_pos (by simp)]
      simp only [List.lookup, beq_self_eq_true]
    · rw [if_neg (by simp [hks])]
      have hsk : (s == k) = false :=
        beq_eq_false_iff_ne.mpr (fun hh => hks hh.symm)
      have h' : d.any (fun p => p.1 == s) = true := by
        cases hany : d.any (fun p => p.1 == s) with
        | true => rfl
        | false =>
          exfalso
          rw [List.any_cons, hany] at h
          simp [hks] at h
      simp only [List.lookup, hsk]
      exact lookup_map_update_self s v d h'

/-- A key absent from the dict looks up to nothing. -/
theorem lookup_eq_none_of_not_any (s : ℤ) :
    ∀ d : List (ℤ × ℚ), d.any (fun p => p.1 == s) = false →
      List.lookup s d = none
  | [], _ => rfl
  | (k, b) :: d, h => by
    rw [List.any_cons, Bool.or_eq_false_iff] at h
    obtain ⟨h1, h2⟩ := h
    have hsk : (s == k) = false := by
      rw [beq_eq_false_iff_ne] at h1 ⊢
      exact fun hh => h1 hh.symm
    simp [List.lookup, hsk, lookup_eq_none_of_not_any s d h2]

/-- Lookup distributes over list append as a left-biased choice. -/
theorem lookup_append (x : ℤ) :
    ∀ (a b : List (ℤ × ℚ)),
      List.lookup x (a ++ b) = Option.or (List.lookup x a) (List.lookup x b)
  | [], b => by simp [List.lookup]
  | (k, c) :: a, b => by
    by_cases hxk : x = k
    · subst hxk
      simp [List.lookup]
    · have hxk' : (x == k) = false := beq_eq_false_iff_ne.mpr hxk
      simp [List.lookup, hxk', lookup_append x a b]

/-- Lookup after a dict write: the written speaker maps to the new
loss, every other key is unchanged. -/
theorem updateLoss_lookup (d : List (ℤ × ℚ)) (s : ℤ) (v : ℚ) (x : ℤ) :
    List.lookup x (updateLoss d s v)
      = if x = s then some v else List.lookup x d := by
  unfold updateLoss
  by_cases h : d.any (fun p => p.1 == s)
  · rw [if_pos h]
    by_cases hx : x = s
    · subst hx
      rw [if_pos rfl]
      exact lookup_map_update_self x v d h
    · rw [if_neg hx]
      exact lookup_map_update_ne s v x hx d
  · have hfalse : d.any (fun p => p.1 == s) = false := by
      cases hany : d.any (fun p => p.1 == s) with
      | true => exact absurd hany h
      | false => rfl
    rw [if_neg h, lookup_append]
    by_cases hx : x = s
    · subst hx
      rw [if_pos rfl, lookup_eq_none_of_not_any x d hfalse]
      simp [List.lookup]
    · have hx' : (x == s) = false := beq_eq_false_iff_ne.mpr hx
      rw [if_neg hx]
      simp [List.lookup, hx', Option.or_none]

/-- The keys of the accumulated dict are the initial keys plus the
speakers of all folded batches. -/
theorem lossDictFrom_keys (x : ℤ) :
    ∀ (bs : List (ℤ × ℚ)) (dict : List (ℤ × ℚ)),
      x ∈ (lossDictFrom dict bs).map Prod.fst
        ↔ x ∈ dict.map Prod.fst ∨ x ∈ bs.map Prod.fst
  | [], dict => by simp [lossDictFrom]
  | (s, v) :: rest, dict => by
    have hstep : lossDictFrom dict ((s, v) :: rest)
        = lossDictFrom (updateLoss dict s v) rest := by
      simp [lossDictFrom]
    rw [hstep, lossDictFrom_keys x rest (updateLoss dict s v), updateLoss_keys]
    simp only [List.map_cons, List.mem_cons]
    tauto

/-- A speaker looks up its most recent loss in the accumulated dict:
the first match scanning the folded batches backwards, falling back to
the initial dict. -/
theorem lossDictFrom_lookup (x : ℤ) :
    ∀ (bs : List (ℤ × ℚ)) (dict : List (ℤ × ℚ)),
      List.lookup x (lossDictFrom dict bs)
        = Option.or (List.lookup x bs.reverse) (List.lookup x dict)
  | [], dict => by simp [lossDictFrom, List.lookup]
  | (s, v) :: rest, dict => by
    have hstep : lossDictFrom dict ((s, v) :: rest)
        = lossDictFrom (updateLoss dict s v) rest := by
      simp [lossDictFrom]
    rw [hstep, lossDictFrom_lookup x rest (updateLoss dict s v),
      List.reverse_cons, lookup_append, updateLoss_lookup, Option.or_assoc]
    by_cases hx : x = s
    · subst hx
      simp [List.lookup]
    · have hx' : (x == s) = false := beq_eq_false_iff_ne.mpr hx
      simp [List.lookup, hx', if_neg hx]

/-- The emitted records of the logging loop are, position for position,
the accumulated dicts at the firing logging points: the record emitted
at batch index `j` is the initial dict folded over the first `j + 1`
batches. -/
theorem moLogGo_eq_filterMap (emitAt : ℕ → Bool) :
    ∀ (bs : List (ℤ × ℚ)) (i : ℕ) (dict : List (ℤ × ℚ)),
      moLogGo emitAt bs i dict
        = (List.range bs.length).filterMap
            (fun j => if emitAt (i + j)
              then some (lossDictFrom dict (bs.take (j + 1))) else none)
  | [], i, dict => by simp [moLogGo]
  | (s, v) :: rest, i, dict => by
    rw [moLogGo, moLogGo_eq_filterMap emitAt rest (i + 1) (updateLoss dict s v),
      List.length_cons, List.range_succ_eq_map, List.filterMap_cons,
      List.filterMap_map]
    have hfun :
        ((fun j => if emitAt (i + j)
            then some (lossDictFrom dict (((s, v) :: rest).take (j + 1)))
            else none) ∘ Nat.succ)
        = (fun j => if emitAt (i + 1 + j)
            then some (lossDictFrom (updateLoss dict s v) (rest.take (j + 1)))
            else none) := by
      funext j
      have h1 : i + Nat.succ j = i + 1 + j := by omega
      have h2 : ((s, v) :: rest).take (Nat.succ j + 1)
          = (s, v) :: rest.take (j + 1) := rfl
      simp only [Function.comp_apply, h1, h2, lossDictFrom, List.foldl_cons]
    rw [hfun]
    by_cases he : emitAt i
    · simp [he, lossDictFrom]
    · simp [he, lossDictFrom]

/-- C6 amended: the emitted composite records are, in order, exactly
the speaker-loss dicts at the firing logging points, each accumulated
over ALL batches processed since the start of the epoch (the record is
never reset after an emission); the record after batch `j` therefore
holds exactly the set of speakers seen in the first `j + 1` batches,
each mapped to the loss of its most recent batch. -/
theorem mo_log_records_epoch_speakers (roundN logFreq : ℕ)
    (batches : List (ℤ × ℚ)) :
    moTrainLog roundN logFreq batches
      = (List.range batches.length).filterMap
          (fun j => if ((j + 1) % (roundN * logFreq) == 0)
                || decide (batches.length ≤ j + 1)
            then some (lossDict (batches.take (j + 1))) else none) ∧
    (∀ j : ℕ, ∀ x : ℤ,
      x ∈ (lossDict (batches.take (j + 1))).map Prod.fst
        ↔ x ∈ (batches.take (j + 1)).map Prod.fst) ∧
    (∀ j : ℕ, ∀ x : ℤ,
      List.lookup x (lossDict (batches.take (j + 1)))
        = List.lookup x (batches.take (j + 1)).reverse) := by
  refine ⟨?_, ?_, ?_⟩
  · rw [moTrainLog, moLogGo_eq_filterMap]
    simp [lossDict]
  · intro j x
    rw [lossDict, lossDictFrom_keys]
    simp
  · intro j x
    rw [lossDict, lossDictFrom_lookup]
    simp [List.lookup, Option.or_none]

/-- C6 as stated is false: in a 4-batch epoch logging every 2 batches,
speaker 0 appears only in the first logging interval, yet the second
emitted record still contains speaker 0 (with its stale loss), because
`spk_loss_batch` is never reset after emission. -/
theorem mo_log_stale_speaker_counterexample :
    (moTrainLog 2 1 [((0:ℤ), (1:ℚ)), (1, 2), (1, 3), (1, 4)]).getD 1 []
      = [(0, 1), (1, 4)] ∧
    (0:ℤ) ∈ ((moTrainLog 2 1 [((0:ℤ), (1:ℚ)), (1, 2), (1, 3), (1, 4)]).getD 1
      []).map Prod.fst ∧
    (0:ℤ) ∉ ([((1:ℤ), (3:ℚ)), (1, 4)]).map Prod.fst := by
  refine ⟨?_, ?_, by decide⟩ <;>
    simp [moTrainLog, moLogGo, updateLoss]

/-- Embeds `np.round` as applied to the voicing channel: round half to
even, to integer. -/
def npRound (x : ℚ) : ℤ :=
  if x - ⌊x⌋ < 1/2 then ⌊x⌋
  else if 1/2 < x - ⌊x⌋ then ⌊x⌋ + 1
  else if ⌊x⌋ % 2 = 0 then ⌊x⌋ else ⌊x⌋ + 1

/-- The rounded voicing channel `uv = np.round(uv)` (core.py line 172,
line 276 in att_synthesize). -/
def roundUV (uv : List ℚ) : List ℤ := uv.map npRound

/-- Embeds the spectral tilt post-processing (core.py lines 173-174):
first `fv[np.where(uv == 0)] = 1000.0`, then
`fv[np.where(fv < 1000)] = 1000.0`, elementwise over the frame
stream. -/
def postFV (fv : List ℚ) (uvR : List ℤ) : List ℚ :=
  (List.zipWith (fun f u => if u = 0 then (1000:ℚ) else f) fv uvR).map
    (fun f => if f < 1000 then 1000 else f)

/-- Embeds the log-F0 post-processing (core.py line 175):
`lf0[np.where(uv == 0)] = -10000000000.0`. -/
def postLF0 (lf0 : List ℚ) (uvR : List ℤ) : List ℚ :=
  List.zipWith (fun l u => if u = 0 then (-10000000000 : ℚ) else l) lf0 uvR

/-- Positional access through `zipWith`, with arbitrary defaults. -/
theorem zipWith_getD {α β γ : Type} (f : α → β → γ) (da : α) (db : β) (dc : γ) :
    ∀ (a : List α) (b : List β) (i : ℕ), i < a.length → i < b.length →
      (List.zipWith f a b).getD i dc = f (a.getD i da) (b.getD i db)
  | [], _, i, ha, _ => absurd ha (by simp)
  | _ :: _, [], i, _, hb => absurd hb (by simp)
  | x :: xs, y :: ys, 0, _, _ => rfl
  | x :: xs, y :: ys, i + 1, ha, hb => by
    simp only [List.zipWith_cons_cons, List.getD_cons_succ]
    exact zipWith_getD f da db dc xs ys i (by simpa using ha) (by simpa using hb)

/-- Positional access through `map`, with arbitrary defaults. -/
theorem map_getD {α β : Type} (f : α → β) (da : α) (db : β) :
    ∀ (l : List α) (i : ℕ), i < l.length →
      (l.map f).getD i db = f (l.getD i da)
  | [], i, h => absurd h (by simp)
  | x :: xs, 0, _ => rfl
  | x :: xs, i + 1, h => by
    simp only [List.map_cons, List.getD_cons_succ]
    exact map_getD f da db xs i (by simpa using h)

/-- C7: at every frame whose rounded voicing value is 0, the
post-processing forces spectral tilt to exactly 1000.0 and log-F0 to
exactly -1e10, whatever the raw model output there was. -/
theorem unvoiced_frame_sentinels (fv lf0 uv : List ℚ) (i : ℕ)
    (hfv : fv.length = uv.length) (hlf : lf0.length = uv.length)
    (hi : i < uv.length) (h0 : (roundUV uv).getD i 1 = 0) :
    (postFV fv (roundUV uv)).getD i 0 = 1000 ∧
    (postLF0 lf0 (roundUV uv)).getD i 0 = -10000000000 := by
  have hlen : (roundUV uv).length = uv.length := by simp [roundUV]
  constructor
  · unfold postFV
    rw [map_getD _ 0 0 _ i (by simp [List.length_zipWith]; omega),
      zipWith_getD _ 0 1 0 fv (roundUV uv) i (by omega) (by omega), h0]
    norm_num
  · unfold postLF0
    rw [zipWith_getD _ 0 1 0 lf0 (roundUV uv) i (by omega) (by omega), h0]
    norm_num

/-- Witness for C7: a voiced-looking raw tilt of 2000 and log-F0 of 5
are both overridden at a frame whose voicing 0.2 rounds to 0. -/
theorem unvoiced_frame_sentinels_witness :
    ([(2000:ℚ)].length = [(1/5:ℚ)].length ∧ [(5:ℚ)].length = [(1/5:ℚ)].length ∧
     0 < [(1/5:ℚ)].length ∧ (roundUV [(1/5:ℚ)]).getD 0 1 = 0) ∧
    ((postFV [(2000:ℚ)] (roundUV [(1/5:ℚ)])).getD 0 0 = 1000 ∧
     (postLF0 [(5:ℚ)] (roundUV [(1/5:ℚ)])).getD 0 0 = -10000000000) :=
  ⟨⟨rfl, rfl, by norm_num, by norm_num [roundUV, npRound]⟩,
   unvoiced_frame_sentinels [(2000:ℚ)] [(5:ℚ)] [(1/5:ℚ)] 0 rfl rfl
     (by norm_num) (by norm_num [roundUV, npRound])⟩

/-- C10: after post-processing, every spectral tilt value in the output
stream is at least 1000, for voiced frames as well as unvoiced ones,
because of the second mask `fv[np.where(fv < 1000)] = 1000.0`. -/
theorem tilt_floor_invariant (fv : List ℚ) (uvR : List ℤ) (x : ℚ)
    (hx : x ∈ postFV fv uvR) : 1000 ≤ x := by
  unfold postFV at hx
  rw [List.mem_map] at hx
  obtain ⟨y, _, rfl⟩ := hx
  by_cases h : y < 1000
  · rw [if_pos h]
  · rw [if_neg h]
    linarith [not_lt.mp h]

/-- Witness for C10: a voiced frame (voicing 1) with raw tilt 500 is
raised to at least 1000. -/
theorem tilt_floor_invariant_witness :
    (1000:ℚ) ∈ postFV [(500:ℚ)] [(1:ℤ)] ∧ (1000:ℚ) ≤ 1000 :=
  ⟨by norm_num [postFV], tilt_floor_invariant [(500:ℚ)] [(1:ℤ)] 1000
    (by norm_num [postFV])⟩

/-- A Python value as needed by the speaker-homogeneity assert: a bool,
a numpy integer array, or a tuple of values. -/
inductive PyVal where
  | pyBool (b : Bool)
  | pyArr (xs : List ℤ)
  | pyTuple (vs : List PyVal)

/-- Python truthiness of those values: a bool is itself and a tuple is
truthy iff it is nonempty (its elements are never inspected; the array
case is modelled as nonemptiness but is never reached below). -/
def PyVal.truthy : PyVal → Bool
  | .pyBool b => b
  | .pyArr xs => !xs.isEmpty
  | .pyTuple vs => !vs.isEmpty

/-- Embeds `np.all(spk_npy == spk_npy[0, 0])` over the flattened
speaker batch. -/
def spkAllEqual (spks : List ℤ) : Bool := spks.all (fun s => s == spks.headI)

/-- Embeds core.py lines 722-725 (identically lines 1206-1208):
`all_comp = np.all(spk_npy == spk_npy[0, 0]), spk_npy` builds a PAIR,
and `assert all_comp` checks the truthiness of that pair. -/
def allComp (spks : List ℤ) : PyVal :=
  .pyTuple [.pyBool (spkAllEqual spks), .pyArr spks]

/-- Whether the per-batch speaker-homogeneity assert passes. -/
def spkAssertPasses (spks : List ℤ) : Bool := (allComp spks).truthy

/-- C5 fails on the code: the assert value is a nonempty tuple, which
is always truthy, so the assertion passes for EVERY batch — including
the heterogeneous batch [0, 1], for which the intended homogeneity
check is false. -/
theorem spk_assert_vacuous :
    (∀ spks : List ℤ, spkAssertPasses spks = true) ∧
    spkAllEqual [0, 1] = false := by
  exact ⟨fun _ => rfl, by decide⟩

/-- Embeds core.py lines 478-481 of `train_dur_epoch`: the stateful
flag is turned on by mere presence of the key in the option bag and the
popped value is discarded. -/
def parseStateful (opts : List (String × Bool)) : Bool × List (String × Bool) :=
  if opts.any (fun p => p.1 == "stateful") then
    (true, opts.filter (fun p => p.1 != "stateful"))
  else
    (false, opts)

/-- C9: passing stateful = False is indistinguishable from passing
stateful = True — both turn the flag on and leave the same residual
option bag — and only omitting the key leaves the flag off. -/
theorem stateful_presence_not_value (rest : List (String × Bool)) (v : Bool)
    (h : rest.any (fun p => p.1 == "stateful") = false) :
    parseStateful (("stateful", v) :: rest)
      = parseStateful (("stateful", true) :: rest) ∧
    (parseStateful (("stateful", v) :: rest)).1 = true ∧
    (parseStateful rest).1 = false := by
  refine ⟨?_, ?_, ?_⟩
  · simp [parseStateful]
  · simp [parseStateful]
  · simp [parseStateful, h]

/-- Witness for C9 with an otherwise empty option bag. -/
theorem stateful_presence_not_value_witness :
    (([] : List (String × Bool)).any (fun p => p.1 == "stateful") = false) ∧
    (parseStateful [("stateful", false)] = parseStateful [("stateful", true)] ∧
     (parseStateful [("stateful", false)]).1 = true ∧
     (parseStateful ([] : List (String × Bool))).1 = false) :=
  ⟨rfl, stateful_presence_not_value [] false rfl⟩

/-- Embeds the ground-truth duration normalization of `synthesize`
(core.py lines 128-129, identically lines 235-236):
`ndurs = (dur - min) / (max - min)`. -/
def durNorm (d mn mx : ℚ) : ℚ := (d - mn) / (mx - mn)

/-- Embeds the predicted-duration de-normalization of `synthesize`
(core.py line 135, identically line 242):
`dur = ndurs * min_dur - max_dur + min_dur`. -/
def durDenormCode (n mn mx : ℚ) : ℚ := n * mn - mx + mn

/-- C3 fails on the code: with speaker stats min = 0 and max = 1 the
physical duration 1/2 normalizes to 1/2, but the de-normalization the
synthesis driver applies to that value returns -1 (a negative physical
duration), not 1/2; the true inverse n * (max - min) + min does return
1/2.  The code line is a slip for
`ndurs * (max_dur - min_dur) + min_dur`. -/
theorem dur_denorm_not_inverse :
    durNorm (1/2) 0 1 = 1/2 ∧
    durDenormCode (durNorm (1/2) 0 1) 0 1 = -1 ∧
    durDenormCode (durNorm (1/2) 0 1) 0 1 ≠ 1/2 ∧
    durNorm (1/2) 0 1 * (1 - 0) + 0 = 1/2 := by
  norm_num [durNorm, durDenormCode]

end Musa
